import Mathlib

/-!
Verification of the rename-in-editor core (`src/rename_in_editor.py`).

This file shallowly embeds the program's data model and operations:

* Python `pathlib.Path` objects are modelled as their canonical string
  representation; `pathNorm` is the normalisation `str(Path(s))` performs
  (dropping empty and `"."` components, collapsing runs of slashes, with the
  POSIX special case for exactly two leading slashes).
* `EnumeratedFiles` (the manifest) is the insertion-ordered `dict[int, Path]`,
  modelled as an association list `List (Nat × String)`; its constructor
  enforces the distinct-paths invariant exactly as `EnumeratedFiles.__init__`.
* The regex line parser of `EnumeratedFiles.from_str`
  (`re.search` with pattern `(\d+)\s*;\s*(.*\S).*` over `text.split("\n")`)
  is modelled by `parseLine`/`searchFrom`/`matchAt`, a direct transcription of
  the leftmost-match backtracking semantics of that pattern.  `\d` is the full
  Unicode decimal-digit class (`digitBlocks`) and `\s` Python's whitespace set
  for `str` patterns.
* Python's process-seeded `hash` on paths is an arbitrary-but-fixed function
  `h : String → Int` passed as a parameter; `mangled_path` follows
  `path.with_name(path.name + "_temp_name_" + str(hash(path)))` and returns
  `none` in the case where `Path.with_name` raises `ValueError` (empty name).
* The filesystem is a finite map from path to file content, modelled as an
  association list; `safe_rename` performs the existence check, the no-op
  short-circuit and `Path.replace` of the source.
* `RenamePlugin.rename_files` returns the resulting filesystem together with
  `Option RErr`: `some e` corresponds to the Python exception `e` propagating,
  in which case the returned filesystem is the state at the moment the
  exception was raised (already-applied renames are kept, nothing is undone).
-/

namespace RenameInEditor

/-- Error kinds raised by the core, mirroring the Python exceptions:
`ValueError "Repeated path detected"`, the `KeyError` raised by the
`same_keys` guard, `FileExistsError`, `FileNotFoundError` from
`Path.replace`, the `ValueError` of `Path.with_name` on an empty name, and
a `KeyError` from a missing dict lookup. -/
inductive RErr where
  | duplicatePath
  | keySetMismatch
  | fileExists
  | fileNotFound
  | valueError
  | keyLookup
  deriving DecidableEq

deriving instance DecidableEq for Except

/-- Base code points of the Unicode 15.0 decimal-digit blocks (general
category Nd, the Unicode version of CPython 3.12): each listed `b` is the
start of a run `b .. b+9` of digits with decimal values `0 .. 9`. -/
def digitBlocks : List Nat :=
  [0x30, 0x660, 0x6f0, 0x7c0, 0x966, 0x9e6, 0xa66, 0xae6, 0xb66, 0xbe6,
   0xc66, 0xce6, 0xd66, 0xde6, 0xe50, 0xed0, 0xf20, 0x1040, 0x1090, 0x17e0,
   0x1810, 0x1946, 0x19d0, 0x1a80, 0x1a90, 0x1b50, 0x1bb0, 0x1c40, 0x1c50, 0xa620,
   0xa8d0, 0xa900, 0xa9d0, 0xa9f0, 0xaa50, 0xabf0, 0xff10, 0x104a0, 0x10d30, 0x11066,
   0x110f0, 0x11136, 0x111d0, 0x112f0, 0x11450, 0x114d0, 0x11650, 0x116c0, 0x11730, 0x118e0,
   0x11950, 0x11c50, 0x11d50, 0x11da0, 0x11f50, 0x16a60, 0x16ac0, 0x16b50, 0x1d7ce, 0x1d7d8,
   0x1d7e2, 0x1d7ec, 0x1d7f6, 0x1e140, 0x1e2f0, 0x1e4f0, 0x1e950, 0x1fbf0]

/-- Characters matched by Python's `\d` for `str` patterns (compiled without
`re.ASCII`): every Unicode decimal digit, i.e. every character of an Nd
block. -/
def isDigitChar (c : Char) : Bool :=
  digitBlocks.any (fun b => b ≤ c.toNat && c.toNat ≤ b + 9)

/-- Decimal value of a digit character — its offset inside its block — as
`int()` assigns it (`unicodedata.decimal`). -/
def digitVal (c : Char) : Nat :=
  match digitBlocks.find? (fun b => b ≤ c.toNat && c.toNat ≤ b + 9) with
  | some b => c.toNat - b
  | none => 0

/-- Characters matched by Python's `\s` for `str` patterns (the `str.isspace`
set). -/
def isSpaceChar (c : Char) : Bool :=
  c = ' ' || c = '\t' || c = '\n' || c = '\r' || c = '\x0b' || c = '\x0c' ||
  c = '\x1c' || c = '\x1d' || c = '\x1e' || c = '\x1f' || c = '\x85' ||
  c = '\xa0' || c = '\u1680' || ('\u2000' ≤ c && c ≤ '\u200a') ||
  c = '\u2028' || c = '\u2029' || c = '\u202f' || c = '\u205f' || c = '\u3000'

/-- Value of a decimal digit string, as computed by Python's `int` on the
first regex group (which is a nonempty run of digits, possibly from any of
the Nd blocks). -/
def digitsVal (ds : List Char) : Nat :=
  ds.foldl (fun a c => 10 * a + digitVal c) 0

/-- Model of Python's `str.split` on a single separator character. -/
def splitOnChar (sep : Char) : List Char → List (List Char)
  | [] => [[]]
  | c :: rest =>
    if c = sep then [] :: splitOnChar sep rest
    else
      match splitOnChar sep rest with
      | [] => [[c]]
      | l :: ls => (c :: l) :: ls

/-- Canonical form of a path string: the normalisation performed by
`pathlib.PurePosixPath` construction (`str(Path(s))`): empty and `"."`
components are dropped, runs of slashes collapse, exactly two leading slashes
are preserved, and the empty string becomes `"."`. -/
def pathNorm (s : String) : String :=
  let comps := (splitOnChar '/' s.data).filter (fun c => !(c.isEmpty) && !(c == ['.']))
  let root : List Char :=
    match s.data with
    | '/' :: '/' :: '/' :: _ => ['/']
    | '/' :: '/' :: _ => ['/', '/']
    | '/' :: _ => ['/']
    | _ => []
  if root.isEmpty && comps.isEmpty then "." else ⟨root ++ List.intercalate ['/'] comps⟩

/-- Final component of a canonical path string, as `PurePath.name`
(Python 3.12): the last component, or `""` when the path has none. -/
def pathName (p : String) : String :=
  if p = "." then "" else ⟨(p.data.reverse.takeWhile (fun c => c != '/')).reverse⟩

/-- Replace the final component of a canonical path string, as
`PurePath.with_name` does when its argument is a valid name. -/
def withName (p n : String) : String :=
  ⟨p.data.take (p.data.length - (p.data.reverse.takeWhile (fun c => c != '/')).length)
    ++ n.data⟩

/-- Model of `mangled_path`:
`path.with_name(path.name + "_temp_name_" + str(hash(path)))`.
`h` stands for Python's process-seeded `hash` on the path's string.
`none` models a `ValueError` from `with_name` when the path has no final
component (canonical paths `"."`, `"/"`, `"//"`). -/
def mangled_path (h : String → Int) (p : String) : Option String :=
  if p = "." ∨ p = "/" ∨ p = "//" then none
  else some (withName p (pathName p ++ "_temp_name_" ++ Int.repr (h p)))

/-- Filesystem model: a finite map from path to file content, as an
association list with pairwise-distinct paths. -/
abbrev FS := List (String × Nat)

/-- Model of `Path.exists` restricted to the files of the model. -/
def fsHas : FS → String → Bool
  | [], _ => false
  | e :: fs, p => if e.1 = p then true else fsHas fs p

/-- Content of the file at a path, if present. -/
def fsGet : FS → String → Option Nat
  | [], _ => none
  | e :: fs, p => if e.1 = p then some e.2 else fsGet fs p

/-- Remove the file at a path. -/
def fsErase : FS → String → FS
  | [], _ => []
  | e :: fs, p => if e.1 = p then fsErase fs p else e :: fsErase fs p

/-- Model of `safe_rename`: raise `FileExistsError` if the target exists,
return unchanged when source and target are equal, otherwise perform
`Path.replace` (which raises `FileNotFoundError` for a missing source). -/
def safe_rename (fs : FS) (current_path new_path : String) : Except RErr FS :=
  if fsHas fs new_path then .error .fileExists
  else if current_path = new_path then .ok fs
  else
    match fsGet fs current_path with
    | none => .error .fileNotFound
    | some c => .ok ((new_path, c) :: fsErase fs current_path)

/-- The manifest: the insertion-ordered `dict[int, Path]` held by
`EnumeratedFiles`, with paths in canonical string form. -/
structure EnumeratedFiles where
  entries : List (Nat × String)
  deriving DecidableEq

/-- Model of `EnumeratedFiles.__init__`: reject the dict when two indices map
to the same path (`len(set(values)) != len(values)`). -/
def mkEnumeratedFiles (d : List (Nat × String)) : Except RErr EnumeratedFiles :=
  if (d.map Prod.snd).Nodup then .ok ⟨d⟩ else .error .duplicatePath

/-- Indices of a manifest, in insertion order. -/
def EnumeratedFiles.keys (m : EnumeratedFiles) : List Nat :=
  m.entries.map Prod.fst

/-- Model of `self.__enumerated_files[item]` (`none` is Python's `KeyError`). -/
def EnumeratedFiles.get (m : EnumeratedFiles) (k : Nat) : Option String :=
  (m.entries.find? (fun p => p.1 == k)).map Prod.snd

/-- Model of `EnumeratedFiles.from_list`: indices `0..n-1` in input order,
each path put in canonical form by the `Path` constructor. -/
def EnumeratedFiles.from_list (l : List String) : Except RErr EnumeratedFiles :=
  mkEnumeratedFiles (l.map pathNorm).enum

/-- A dict write `d[i] = v`: update in place when the key is present
(keeping its insertion position), otherwise append. -/
def dictInsert (d : List (Nat × String)) (k : Nat) (v : String) :
    List (Nat × String) :=
  if d.any (fun p => p.1 == k) then d.map (fun p => if p.1 = k then (k, v) else p)
  else d ++ [(k, v)]

/-- Attempted match of the pattern `(\d+)\s*;\s*(.*\S).*` anchored at the head
of `cs` (one candidate start position of `re.search`).  As the pattern
requires, a match needs a nonempty digit run, then only whitespace up to a
semicolon, then at least one non-whitespace character; group 2 extends
greedily from the first non-whitespace character after the semicolon to the
last non-whitespace character of the line. -/
def matchAt (cs : List Char) : Option (Nat × String) :=
  let ds := cs.takeWhile isDigitChar
  if ds.isEmpty then none
  else
    match (cs.dropWhile isDigitChar).dropWhile isSpaceChar with
    | ';' :: r =>
      let r2 := r.dropWhile isSpaceChar
      if r2.isEmpty then none
      else some (digitsVal ds, ⟨(r2.reverse.dropWhile isSpaceChar).reverse⟩)
    | _ => none

/-- Leftmost-match scan of `re.search`: try every start position from the
left, returning the first successful match. -/
def searchFrom : List Char → Option (Nat × String)
  | [] => none
  | c :: rest =>
    match matchAt (c :: rest) with
    | some r => some r
    | none => searchFrom rest

/-- Model of one loop iteration of `EnumeratedFiles.from_str`:
`re.search(regex_pattern, line)` with the groups converted to the entry. -/
def parseLine (cs : List Char) : Option (Nat × String) :=
  searchFrom cs

/-- Model of Python's `text.split("\n")`. -/
def splitOnNl (cs : List Char) : List (List Char) :=
  splitOnChar '\n' cs

/-- One line of the `from_str` loop body: a non-matching line leaves the dict
unchanged, a matching one writes `d[i] = Path(fp)`. -/
def decodeStep (d : List (Nat × String)) (line : List Char) :
    List (Nat × String) :=
  match parseLine line with
  | none => d
  | some (i, fp) => dictInsert d i (pathNorm fp)

/-- Model of `EnumeratedFiles.from_str`: split the text on newlines, collect
the entry of each matching line into the dict (later lines overwrite earlier
ones with the same index), then run the constructor check. -/
def EnumeratedFiles.from_str (text : String) : Except RErr EnumeratedFiles :=
  mkEnumeratedFiles ((splitOnNl text.data).foldl decodeStep [])

/-- Model of `EnumeratedFiles.same_keys`: equality of the two key sets. -/
def EnumeratedFiles.same_keys (a b : EnumeratedFiles) : Bool :=
  a.keys.all (fun k => decide (k ∈ b.keys)) && b.keys.all (fun k => decide (k ∈ a.keys))

/-- Model of `EnumeratedFiles.has_collision`: whether `new_paths[key]` occurs
among the original paths once the entry for `key` itself is dropped.  (Python
pops `key` from a deep copy; with `key` absent it would raise `KeyError`,
which never happens at its call site inside the reconciler.) -/
def EnumeratedFiles.has_collision (orig new_paths : EnumeratedFiles) (key : Nat) :
    Bool :=
  match new_paths.get key with
  | none => false
  | some nw => (orig.entries.filter (fun p => !(p.1 == key))).any (fun p => p.2 == nw)

/-- Model of `EnumeratedFiles.__str__`: one `"{i}; {path}\n"` line per entry,
in insertion order. -/
def EnumeratedFiles.toText (m : EnumeratedFiles) : String :=
  m.entries.foldl (fun out e => out ++ Nat.repr e.1 ++ "; " ++ e.2 ++ "\n") ""

/-- The `(intended final name, temporary name)` record kept for the restore
pass. -/
structure TempNameRecord where
  name : String
  temp_name : String
  deriving DecidableEq

/-- The first pass of `RenamePlugin.rename_files`: walk the original entries
in insertion order; skip unchanged names; on collision divert the rename to
the mangled temporary name, recording it first; propagate the first raised
error, returning the filesystem and records as they were at that moment. -/
def renameLoop (h : String → Int) (orig new_paths : EnumeratedFiles) :
    List (Nat × String) → FS → List TempNameRecord →
      FS × List TempNameRecord × Option RErr
  | [], fs, recs => (fs, recs, none)
  | (key, old_name) :: rest, fs, recs =>
    match new_paths.get key with
    | none => (fs, recs, some .keyLookup)
    | some n0 =>
      if n0 = old_name then renameLoop h orig new_paths rest fs recs
      else if orig.has_collision new_paths key then
        match mangled_path h n0 with
        | none => (fs, recs, some .valueError)
        | some t =>
          match safe_rename fs old_name t with
          | .error e => (fs, recs ++ [⟨n0, t⟩], some e)
          | .ok fs2 => renameLoop h orig new_paths rest fs2 (recs ++ [⟨n0, t⟩])
      else
        match safe_rename fs old_name n0 with
        | .error e => (fs, recs, some e)
        | .ok fs2 => renameLoop h orig new_paths rest fs2 recs

/-- The restore pass ("Undo name mangling"): rename every recorded temporary
name to its intended final name, in record order, stopping at the first
error. -/
def restoreLoop : FS → List TempNameRecord → FS × Option RErr
  | fs, [] => (fs, none)
  | fs, r :: rest =>
    match safe_rename fs r.temp_name r.name with
    | .error e => (fs, some e)
    | .ok fs2 => restoreLoop fs2 rest

/-- Model of `RenamePlugin.rename_files`: the key-set guard, the rename pass
and the restore pass.  The `Option RErr` is the propagated exception; the
returned filesystem is the state at the moment it was raised. -/
def RenamePlugin.rename_files (h : String → Int)
    (original_paths new_paths : EnumeratedFiles) (fs : FS) : FS × Option RErr :=
  if original_paths.same_keys new_paths then
    match renameLoop h original_paths new_paths original_paths.entries fs [] with
    | (fs2, recs, none) => restoreLoop fs2 recs
    | (fs2, _, some e) => (fs2, some e)
  else (fs, some .keySetMismatch)

/-! ### Auxiliary lemmas -/

theorem string_data_append (a b : String) : (a ++ b).data = a.data ++ b.data := rfl

theorem string_mk_data (s : String) : String.mk s.data = s := rfl

/-- With pairwise-distinct keys, `find?` on a key of an entry returns that
entry. -/
theorem find_self_of_nodup_keys (l : List (Nat × String))
    (hk : (l.map Prod.fst).Nodup) :
    ∀ p ∈ l, l.find? (fun q => q.1 == p.1) = some p := by
  induction l with
  | nil => intro p hp; cases hp
  | cons a l ih =>
    intro p hp
    simp only [List.map_cons, List.nodup_cons] at hk
    rcases List.mem_cons.mp hp with rfl | hp2
    · exact List.find?_cons_of_pos l (by simp)
    · have hne : ¬ (a.1 == p.1) = true := by
        simp only [beq_iff_eq]
        intro he
        exact hk.1 (he ▸ List.mem_map_of_mem Prod.fst hp2)
      rw [List.find?_cons_of_neg l hne]
      exact ih hk.2 p hp2

/-- With pairwise-distinct keys, `get` on a key of an entry returns its path. -/
theorem get_self_of_nodup_keys (m : EnumeratedFiles) (hk : m.keys.Nodup) :
    ∀ p ∈ m.entries, m.get p.1 = some p.2 := by
  intro p hp
  unfold EnumeratedFiles.get
  rw [find_self_of_nodup_keys m.entries hk p hp]
  rfl

/-- A manifest always has the same key set as itself. -/
theorem same_keys_self (m : EnumeratedFiles) : m.same_keys m = true := by
  simp [EnumeratedFiles.same_keys, List.all_eq_true]

/-- When every scheduled entry already carries its new name, the rename pass
touches nothing. -/
theorem renameLoop_skip_all (h : String → Int) (orig edited : EnumeratedFiles) :
    ∀ (items : List (Nat × String)) (fs : FS) (recs : List TempNameRecord),
      (∀ p ∈ items, edited.get p.1 = some p.2) →
      renameLoop h orig edited items fs recs = (fs, recs, none) := by
  intro items
  induction items with
  | nil => intro fs recs _; rfl
  | cons a rest ih =>
    intro fs recs hall
    obtain ⟨k, v⟩ := a
    have hk : edited.get k = some v := hall (k, v) (List.mem_cons_self _ _)
    simp only [renameLoop, hk, if_pos rfl]
    exact ih fs recs (fun p hp => hall p (List.mem_cons_of_mem _ hp))

/-- A string extended by any suffix differs from any strictly shorter
string. -/
theorem append_ne_of_length_lt (s X t : String) (hlen : t.length < s.length) :
    s ++ X ≠ t := by
  intro he
  have h2 := congrArg String.length he
  rw [String.length_append] at h2
  omega

/-- The two temp-name stems of the swap scenario differ in their first
character, whatever the hash suffixes are. -/
theorem temp_names_ne (X Y : String) :
    ("a.txt_temp_name_" ++ X) ≠ ("b.txt_temp_name_" ++ Y) := by
  intro he
  have h2 := congrArg String.data he
  rw [string_data_append, string_data_append] at h2
  have ha : ("a.txt_temp_name_" : String).data = 'a' :: ".txt_temp_name_".data := rfl
  have hb : ("b.txt_temp_name_" : String).data = 'b' :: ".txt_temp_name_".data := rfl
  rw [ha, hb, List.cons_append, List.cons_append] at h2
  exact absurd (List.cons.injEq .. ▸ h2).1 (by decide)

/-! ### Decimal representation: `str(int)` round trip -/

theorem digitsVal_foldl_init (cs : List Char) :
    ∀ a : Nat, cs.foldl (fun a c => 10 * a + digitVal c) a
      = a * 10 ^ cs.length + cs.foldl (fun a c => 10 * a + digitVal c) 0 := by
  induction cs with
  | nil => intro a; simp
  | cons c cs ih =>
    intro a
    simp only [List.foldl_cons, List.length_cons]
    rw [ih (10 * a + digitVal c), ih (10 * 0 + digitVal c)]
    ring

theorem digitChar_toNat (m : Nat) (hm : m < 10) :
    digitVal (Nat.digitChar m) = m := by
  interval_cases m <;> decide

theorem digitChar_isDigit (m : Nat) (hm : m < 10) :
    isDigitChar (Nat.digitChar m) = true := by
  interval_cases m <;> decide

theorem toDigitsCore_val (fuel : Nat) :
    ∀ (n : Nat) (acc : List Char), n < 10 ^ fuel →
      digitsVal (Nat.toDigitsCore 10 fuel n acc)
        = n * 10 ^ acc.length + digitsVal acc := by
  induction fuel with
  | zero =>
    intro n acc hn
    have : n = 0 := by omega
    subst this
    simp [Nat.toDigitsCore]
  | succ fuel ih =>
    intro n acc hn
    have hmod : n % 10 < 10 := Nat.mod_lt _ (by omega)
    by_cases hdiv : n / 10 = 0
    · have hn10 : n < 10 := by omega
      simp only [Nat.toDigitsCore, hdiv, if_pos]
      show digitsVal (Nat.digitChar (n % 10) :: acc) = _
      simp only [digitsVal, List.foldl_cons]
      rw [digitsVal_foldl_init acc (10 * 0 + digitVal (Nat.digitChar (n % 10)))]
      rw [digitChar_toNat _ hmod]
      have : n % 10 = n := Nat.mod_eq_of_lt hn10
      rw [this]
      ring
    · simp only [Nat.toDigitsCore, hdiv, if_neg, ite_false]
      have hlt : n / 10 < 10 ^ fuel := by
        rw [Nat.div_lt_iff_lt_mul (by omega : 0 < 10)]
        calc n < 10 ^ (fuel + 1) := hn
          _ = 10 ^ fuel * 10 := by ring
      rw [ih (n / 10) (Nat.digitChar (n % 10) :: acc) hlt]
      have hacc : digitsVal (Nat.digitChar (n % 10) :: acc)
          = (n % 10) * 10 ^ acc.length + digitsVal acc := by
        simp only [digitsVal, List.foldl_cons]
        rw [digitsVal_foldl_init acc (10 * 0 + digitVal (Nat.digitChar (n % 10)))]
        rw [digitChar_toNat _ hmod]
        ring
      rw [hacc, List.length_cons]
      have : n / 10 * 10 ^ (acc.length + 1) = (n / 10) * 10 * 10 ^ acc.length := by ring
      rw [this]
      have hnm : n / 10 * 10 + n % 10 = n := by omega
      calc n / 10 * 10 * 10 ^ acc.length + ((n % 10) * 10 ^ acc.length + digitsVal acc)
          = (n / 10 * 10 + n % 10) * 10 ^ acc.length + digitsVal acc := by ring
        _ = n * 10 ^ acc.length + digitsVal acc := by rw [hnm]

theorem toDigitsCore_digits (fuel : Nat) :
    ∀ (n : Nat) (acc : List Char), (∀ c ∈ acc, isDigitChar c = true) →
      ∀ c ∈ Nat.toDigitsCore 10 fuel n acc, isDigitChar c = true := by
  induction fuel with
  | zero => intro n acc hacc; exact hacc
  | succ fuel ih =>
    intro n acc hacc
    have hmod : n % 10 < 10 := Nat.mod_lt _ (by omega)
    have hcons : ∀ c ∈ Nat.digitChar (n % 10) :: acc, isDigitChar c = true := by
      intro c hc
      rcases List.mem_cons.mp hc with rfl | hc2
      · exact digitChar_isDigit _ hmod
      · exact hacc c hc2
    by_cases hdiv : n / 10 = 0
    · simpa [Nat.toDigitsCore, hdiv] using hcons
    · simpa [Nat.toDigitsCore, hdiv] using ih (n / 10) _ hcons

theorem toDigitsCore_ne_nil (fuel : Nat) :
    ∀ (n : Nat) (acc : List Char), acc ≠ [] → Nat.toDigitsCore 10 fuel n acc ≠ [] := by
  induction fuel with
  | zero => intro n acc hacc; exact hacc
  | succ fuel ih =>
    intro n acc hacc
    by_cases hdiv : n / 10 = 0
    · simp [Nat.toDigitsCore, hdiv]
    · simpa [Nat.toDigitsCore, hdiv] using ih (n / 10) _ (by simp)

theorem repr_data_val (n : Nat) : digitsVal (Nat.repr n).data = n := by
  have hb : n < 10 ^ (n + 1) := by
    calc n < n + 1 := Nat.lt_succ_self n
      _ ≤ 10 ^ (n + 1) := Nat.le_of_lt (Nat.lt_pow_self (by omega) _)
  have := toDigitsCore_val (n + 1) n [] hb
  simpa [Nat.repr, Nat.toDigits, List.asString, digitsVal] using this

theorem repr_data_digits (n : Nat) :
    ∀ c ∈ (Nat.repr n).data, isDigitChar c = true := by
  have := toDigitsCore_digits (n + 1) n [] (by simp)
  simpa [Nat.repr, Nat.toDigits, List.asString] using this

theorem repr_data_ne_nil (n : Nat) : (Nat.repr n).data ≠ [] := by
  show (Nat.toDigits 10 n).asString.data ≠ []
  unfold Nat.toDigits
  show Nat.toDigitsCore 10 (n + 1) n [] ≠ []
  by_cases hdiv : n / 10 = 0
  · simp [Nat.toDigitsCore, hdiv]
  · simpa [Nat.toDigitsCore, hdiv] using toDigitsCore_ne_nil n (n / 10) _ (by simp)

/-! ### Claims -/

/-- C1: in the swap scenario — original `{0: a.txt, 1: b.txt}`, edited
`{0: b.txt, 1: a.txt}`, with exactly the files `a.txt` and `b.txt` on disk —
both entries are classified as collisions, and whatever the process hash is,
the temp-name mangling plus the restore pass leave the filesystem with
exactly the two files `a.txt` and `b.txt`, their contents swapped, and no
error. -/
theorem claim_C1 (h : String → Int) (ca cb : Nat) :
    EnumeratedFiles.has_collision ⟨[(0, "a.txt"), (1, "b.txt")]⟩
        ⟨[(0, "b.txt"), (1, "a.txt")]⟩ 0 = true ∧
    EnumeratedFiles.has_collision ⟨[(0, "a.txt"), (1, "b.txt")]⟩
        ⟨[(0, "b.txt"), (1, "a.txt")]⟩ 1 = true ∧
    RenamePlugin.rename_files h ⟨[(0, "a.txt"), (1, "b.txt")]⟩
        ⟨[(0, "b.txt"), (1, "a.txt")]⟩ [("a.txt", ca), ("b.txt", cb)]
      = ([("a.txt", cb), ("b.txt", ca)], none) := by
  refine ⟨by decide, by decide, ?_⟩
  have hb : mangled_path h "b.txt"
      = some ("b.txt_temp_name_" ++ Int.repr (h "b.txt")) := rfl
  have ha : mangled_path h "a.txt"
      = some ("a.txt_temp_name_" ++ Int.repr (h "a.txt")) := rfl
  set X0 := Int.repr (h "b.txt") with hX0
  set X1 := Int.repr (h "a.txt") with hX1
  have n1 : ("b.txt_temp_name_" ++ X0) ≠ "a.txt" :=
    append_ne_of_length_lt _ _ _ (by decide)
  have n2 : ("b.txt_temp_name_" ++ X0) ≠ "b.txt" :=
    append_ne_of_length_lt _ _ _ (by decide)
  have n3 : ("a.txt_temp_name_" ++ X1) ≠ "a.txt" :=
    append_ne_of_length_lt _ _ _ (by decide)
  have n4 : ("a.txt_temp_name_" ++ X1) ≠ "b.txt" :=
    append_ne_of_length_lt _ _ _ (by decide)
  have n5 : ("a.txt_temp_name_" ++ X1) ≠ ("b.txt_temp_name_" ++ X0) :=
    temp_names_ne X1 X0
  have n6 := n1.symm; have n7 := n2.symm; have n8 := n3.symm; have n9 := n4.symm
  have n10 := n5.symm
  unfold RenamePlugin.rename_files
  rw [if_pos (by decide :
    EnumeratedFiles.same_keys ⟨[(0, "a.txt"), (1, "b.txt")]⟩
      ⟨[(0, "b.txt"), (1, "a.txt")]⟩ = true)]
  simp only [renameLoop, restoreLoop, safe_rename, fsHas, fsGet, fsErase,
    show EnumeratedFiles.get ⟨[(0, "b.txt"), (1, "a.txt")]⟩ 0 = some "b.txt" from rfl,
    show EnumeratedFiles.get ⟨[(0, "b.txt"), (1, "a.txt")]⟩ 1 = some "a.txt" from rfl,
    show EnumeratedFiles.has_collision ⟨[(0, "a.txt"), (1, "b.txt")]⟩
      ⟨[(0, "b.txt"), (1, "a.txt")]⟩ 0 = true from by decide,
    show EnumeratedFiles.has_collision ⟨[(0, "a.txt"), (1, "b.txt")]⟩
      ⟨[(0, "b.txt"), (1, "a.txt")]⟩ 1 = true from by decide,
    hb, ha, n1, n2, n3, n4, n5, n6, n7, n8, n9, n10,
    if_neg, if_pos, ite_true, ite_false]
  simp [renameLoop, restoreLoop, safe_rename, fsHas, fsGet, fsErase,
    n1, n2, n3, n4, n5, n6, n7, n8, n9, n10]

/-- C5: for manifests whose index sets differ, `rename_files` fails with the
key-set-mismatch error and returns the filesystem untouched: zero renames are
issued and no partial application is attempted. -/
theorem claim_C5 (h : String → Int) (orig edited : EnumeratedFiles) (fs : FS)
    (hne : orig.same_keys edited = false) :
    RenamePlugin.rename_files h orig edited fs = (fs, some .keySetMismatch) := by
  simp [RenamePlugin.rename_files, hne]

/-- Witness for C5 on concrete manifests with keys `{0}` and `{1}`. -/
theorem claim_C5_witness :
    (EnumeratedFiles.same_keys ⟨[(0, "a")]⟩ ⟨[(1, "a")]⟩ = false) ∧
    RenamePlugin.rename_files (fun _ => 0) ⟨[(0, "a")]⟩ ⟨[(1, "a")]⟩ [("a", 7)]
      = ([("a", 7)], some .keySetMismatch) :=
  ⟨by decide, claim_C5 (fun _ => 0) ⟨[(0, "a")]⟩ ⟨[(1, "a")]⟩ [("a", 7)] (by decide)⟩

/-- C7: `rename_files m m` performs zero filesystem renames — every index has
equal old and new paths, so each iteration skips before any filesystem call
and the filesystem comes back unchanged with no error. -/
theorem claim_C7 (h : String → Int) (m : EnumeratedFiles) (fs : FS)
    (hk : m.keys.Nodup) :
    RenamePlugin.rename_files h m m fs = (fs, none) := by
  unfold RenamePlugin.rename_files
  rw [if_pos (same_keys_self m),
    renameLoop_skip_all h m m m.entries fs [] (get_self_of_nodup_keys m hk)]
  rfl

/-- Witness for C7 on a concrete manifest and filesystem. -/
theorem claim_C7_witness :
    RenamePlugin.rename_files (fun _ => 2) ⟨[(0, "a"), (3, "b")]⟩
      ⟨[(0, "a"), (3, "b")]⟩ [("a", 1)] = ([("a", 1)], none) :=
  claim_C7 (fun _ => 2) ⟨[(0, "a"), (3, "b")]⟩ [("a", 1)] (by decide)

/-- C3: for manifests with equal index sets and an index `k` of that set, the
collision classifier returns true exactly when the edited path for `k` occurs
as a value of the original manifest at an index other than `k`. -/
theorem claim_C3 (orig edited : EnumeratedFiles) (k : Nat) (nw : String)
    (hsk : orig.same_keys edited = true) (hk : k ∈ orig.keys)
    (hget : edited.get k = some nw) :
    orig.has_collision edited k = true ↔
      ∃ p ∈ orig.entries, p.1 ≠ k ∧ p.2 = nw := by
  rw [EnumeratedFiles.has_collision, hget]
  simp only [List.any_eq_true, List.mem_filter, beq_iff_eq, Bool.not_eq_true',
    beq_eq_false_iff_ne, ne_eq]
  constructor
  · rintro ⟨p, ⟨hp, hpk⟩, hpv⟩
    exact ⟨p, hp, hpk, hpv⟩
  · rintro ⟨p, hp, hpk, hpv⟩
    exact ⟨p, ⟨hp, hpk⟩, hpv⟩

/-- Witness for C3 on the swap manifests at index 0. -/
theorem claim_C3_witness :
    (EnumeratedFiles.has_collision ⟨[(0, "a"), (1, "b")]⟩ ⟨[(0, "b"), (1, "a")]⟩ 0
        = true ↔
      ∃ p ∈ [(0, "a"), (1, "b")], p.1 ≠ 0 ∧ p.2 = "b") :=
  claim_C3 ⟨[(0, "a"), (1, "b")]⟩ ⟨[(0, "b"), (1, "a")]⟩ 0 "b"
    (by decide) (by decide) (by decide)

/-- C6: a manifest whose dict maps two distinct indices to the same path is
rejected with the duplicate-path error — by the constructor itself, by
`from_list` (after path canonicalisation) and by `from_str`; consequently any
successfully constructed manifest has pairwise-distinct paths. -/
theorem claim_C6 :
    (∀ d : List (Nat × String), (d.map Prod.fst).Nodup →
      ((∃ p ∈ d, ∃ q ∈ d, p.1 ≠ q.1 ∧ p.2 = q.2) →
          mkEnumeratedFiles d = .error .duplicatePath)
        ∧ ∀ m, mkEnumeratedFiles d = .ok m → (m.entries.map Prod.snd).Nodup)
    ∧ (∀ l : List String,
        EnumeratedFiles.from_list l = .error .duplicatePath
          ↔ ¬ (l.map pathNorm).Nodup)
    ∧ (∀ text m, EnumeratedFiles.from_str text = .ok m →
        (m.entries.map Prod.snd).Nodup) := by
  have hok : ∀ d m, mkEnumeratedFiles d = .ok m → (m.entries.map Prod.snd).Nodup := by
    intro d m hm
    unfold mkEnumeratedFiles at hm
    split at hm
    · cases hm; assumption
    · cases hm
  refine ⟨fun d hk => ⟨?_, hok d⟩, fun l => ?_, fun text m hm => hok _ m hm⟩
  · rintro ⟨p, hp, q, hq, hne, heq⟩
    unfold mkEnumeratedFiles
    rw [if_neg]
    intro hnd
    exact hne (congrArg Prod.fst (List.inj_on_of_nodup_map hnd hp hq heq))
  · unfold EnumeratedFiles.from_list mkEnumeratedFiles
    rw [List.enum_map_snd]
    constructor
    · intro hm
      split at hm
      · cases hm
      · assumption
    · intro hnd
      rw [if_neg hnd]

/-- Witness for C6: two indices sharing one path are rejected. -/
theorem claim_C6_witness :
    EnumeratedFiles.from_list ["x", "x"] = .error .duplicatePath :=
  (claim_C6.2.1 ["x", "x"]).mpr (by decide)

/-- C10: decoding is total — on every input text `from_str` either returns a
manifest or fails with the duplicate-path construction error, and empty text
decodes to the empty manifest. -/
theorem claim_C10 :
    (∀ text, (∃ m, EnumeratedFiles.from_str text = .ok m)
      ∨ EnumeratedFiles.from_str text = .error .duplicatePath)
    ∧ EnumeratedFiles.from_str "" = .ok ⟨[]⟩ := by
  constructor
  · intro text
    unfold EnumeratedFiles.from_str mkEnumeratedFiles
    split
    · exact .inl ⟨_, rfl⟩
    · exact .inr rfl
  · decide

/-- C4: whenever the computed rename target of the entry about to be
processed (the final name, or the temporary name after collision mangling)
already exists on the filesystem at the moment that individual rename is
attempted, the pass stops with the FileExists error and returns the
filesystem exactly as it was at that moment — no further renames are
processed and renames already applied are not undone.  The same holds for
the restore pass, and `rename_files` propagates the error without running
the restore pass. -/
theorem claim_C4 :
    (∀ (h : String → Int) (orig edited : EnumeratedFiles) (key : Nat)
        (old : String) (rest : List (Nat × String)) (fs : FS)
        (recs recs2 : List TempNameRecord) (n0 target : String),
      edited.get key = some n0 → n0 ≠ old →
      ((orig.has_collision edited key = false ∧ target = n0 ∧ recs2 = recs) ∨
        (orig.has_collision edited key = true ∧ mangled_path h n0 = some target ∧
          recs2 = recs ++ [⟨n0, target⟩])) →
      fsHas fs target = true →
      renameLoop h orig edited ((key, old) :: rest) fs recs
        = (fs, recs2, some .fileExists))
    ∧ (∀ (fs : FS) (r : TempNameRecord) (rest : List TempNameRecord),
        fsHas fs r.name = true →
        restoreLoop fs (r :: rest) = (fs, some .fileExists))
    ∧ (∀ (h : String → Int) (orig edited : EnumeratedFiles) (fs fs2 : FS)
        (recs : List TempNameRecord) (e : RErr),
        orig.same_keys edited = true →
        renameLoop h orig edited orig.entries fs [] = (fs2, recs, some e) →
        RenamePlugin.rename_files h orig edited fs = (fs2, some e)) := by
  refine ⟨?_, ?_, ?_⟩
  · rintro h orig edited key old rest fs recs recs2 n0 target hget hne
      (⟨hcol, rfl, rfl⟩ | ⟨hcol, hmg, rfl⟩) hfs
    · simp [renameLoop, hget, hne, hcol, safe_rename, hfs]
    · simp [renameLoop, hget, hne, hcol, hmg, safe_rename, hfs]
  · intro fs r rest hfs
    simp [restoreLoop, safe_rename, hfs]
  · intro h orig edited fs fs2 recs e hsk hloop
    unfold RenamePlugin.rename_files
    rw [if_pos hsk, hloop]

/-- Witness for C4: renaming `a` to `b` while `b` already exists on disk
(index 0 does not collide with the other manifest entry). -/
theorem claim_C4_witness :
    renameLoop (fun _ => 0) ⟨[(0, "a"), (1, "z")]⟩ ⟨[(0, "b"), (1, "z")]⟩
        [(0, "a")] [("a", 1), ("b", 2)] []
      = ([("a", 1), ("b", 2)], [], some .fileExists) :=
  claim_C4.1 (fun _ => 0) ⟨[(0, "a"), (1, "z")]⟩ ⟨[(0, "b"), (1, "z")]⟩
    0 "a" [] [("a", 1), ("b", 2)] [] [] "b" "b"
    (by decide) (by decide) (.inl ⟨by decide, rfl, rfl⟩) (by decide)

/-- Counterexample to C2 as stated: the manifest holding the single path
`"a "` (a legal `Path`, produced by `from_list ["a "]`) has pairwise-distinct
paths, yet decoding its encoding yields the path `"a"` — the regex strips the
trailing space — so `decode (encode m) ≠ m`. -/
theorem claim_C2_cex :
    EnumeratedFiles.from_list ["a "] = .ok ⟨[(0, "a ")]⟩ ∧
    EnumeratedFiles.from_str (EnumeratedFiles.toText ⟨[(0, "a ")]⟩)
      = .ok ⟨[(0, "a")]⟩ ∧
    (EnumeratedFiles.from_str (EnumeratedFiles.toText ⟨[(0, "a ")]⟩)
      ≠ .ok ⟨[(0, "a ")]⟩) := by
  refine ⟨by decide, by decide, by decide⟩

/-- Counterexample to C8 as stated: the line `"x 1; a"` has non-whitespace
text before the integer, yet `re.search` still matches at the digit and the
line contributes the entry `(1, "a")`. -/
theorem claim_C8_cex :
    parseLine ("x 1; a".data) = some (1, "a") ∧
    EnumeratedFiles.from_str "x 1; a" = .ok ⟨[(1, "a")]⟩ := by
  refine ⟨by decide, by decide⟩

/-- A mangled temporary name is never equal to the path it was derived from:
the final component is extended by the nonempty suffix `_temp_name_...`, so
the mangled path is strictly longer. -/
theorem mangled_ne_target (h : String → Int) (p t : String)
    (hm : mangled_path h p = some t) : t ≠ p := by
  unfold mangled_path at hm
  split at hm
  · cases hm
  · rename_i hcond
    push_neg at hcond
    obtain ⟨h1, h2, h3⟩ := hcond
    cases hm
    intro he
    have hlen := congrArg String.length he
    have hk : (p.data.reverse.takeWhile (fun c => c != '/')).length ≤ p.data.length := by
      calc (p.data.reverse.takeWhile (fun c => c != '/')).length
          ≤ p.data.reverse.length := (List.takeWhile_sublist _).length_le
        _ = p.data.length := p.data.length_reverse
    simp only [withName, pathName, if_neg h1, String.length, List.length_append,
      List.length_take, List.length_reverse] at hlen
    rw [Nat.min_eq_left (Nat.sub_le _ _)] at hlen
    simp only [string_data_append, List.length_append,
      show ∀ l : List Char, (String.mk l).data = l from fun _ => rfl,
      List.length_reverse,
      show ("_temp_name_" : String).data.length = 11 from rfl] at hlen
    omega

/-- C9 (amended): for a colliding index the temporary path is a function of
the hash and the target path alone (two evaluations on the same target
agree), it differs from the target path, and the
`(intended final name, temp name)` record is appended before the rename to
the temporary name is attempted — whether or not that rename succeeds.  (The
original claim's stronger assertion, that the temporary path differs from
every path of either manifest, is refuted by `claim_C9_cex`.) -/
theorem claim_C9 :
    (∀ (h : String → Int) (p q : String), p = q →
      mangled_path h p = mangled_path h q)
    ∧ (∀ (h : String → Int) (p t : String), mangled_path h p = some t → t ≠ p)
    ∧ (∀ (h : String → Int) (orig edited : EnumeratedFiles) (key : Nat)
        (old : String) (rest : List (Nat × String)) (fs : FS)
        (recs : List TempNameRecord) (n0 t : String),
        edited.get key = some n0 → n0 ≠ old →
        orig.has_collision edited key = true → mangled_path h n0 = some t →
        (∃ e, safe_rename fs old t = .error e ∧
          renameLoop h orig edited ((key, old) :: rest) fs recs
            = (fs, recs ++ [⟨n0, t⟩], some e))
        ∨ (∃ fs2, safe_rename fs old t = .ok fs2 ∧
          renameLoop h orig edited ((key, old) :: rest) fs recs
            = renameLoop h orig edited rest fs2 (recs ++ [⟨n0, t⟩]))) := by
  refine ⟨fun h p q hpq => by rw [hpq], mangled_ne_target, ?_⟩
  intro h orig edited key old rest fs recs n0 t hget hne hcol hmg
  simp only [renameLoop, hget, if_neg hne, hcol, if_true, ite_true, hmg]
  cases hsr : safe_rename fs old t with
  | error e => exact .inl ⟨e, rfl, by simp only [hsr]⟩
  | ok fs2 => exact .inr ⟨fs2, rfl, by simp only [hsr]⟩

/-- Witness for C9 (amended): a concrete mangled temporary name differs from
its target. -/
theorem claim_C9_witness : ("b.txt_temp_name_4" : String) ≠ "b.txt" :=
  claim_C9.2.1 (fun _ => 4) "b.txt" "b.txt_temp_name_4" (by decide)

/-- Counterexample to C9 as stated: with the process hash returning 0, in the
manifests below index 0 collides (its target `"b.txt"` is the original path
of index 1), and the computed temporary name `"b.txt_temp_name_0"` is itself
a path occurring in both manifests (index 2) — so the temporary path is not
distinct from every path of the manifests. -/
theorem claim_C9_cex :
    EnumeratedFiles.same_keys ⟨[(0, "a.txt"), (1, "b.txt"), (2, "b.txt_temp_name_0")]⟩
        ⟨[(0, "b.txt"), (1, "a.txt"), (2, "b.txt_temp_name_0")]⟩ = true ∧
    EnumeratedFiles.has_collision ⟨[(0, "a.txt"), (1, "b.txt"), (2, "b.txt_temp_name_0")]⟩
        ⟨[(0, "b.txt"), (1, "a.txt"), (2, "b.txt_temp_name_0")]⟩ 0 = true ∧
    mangled_path (fun _ => 0) "b.txt" = some "b.txt_temp_name_0" ∧
    "b.txt_temp_name_0" ∈
      (⟨[(0, "a.txt"), (1, "b.txt"), (2, "b.txt_temp_name_0")]⟩ :
        EnumeratedFiles).entries.map Prod.snd := by
  refine ⟨by decide, by decide, by decide, by decide⟩

/-! ### Regex search characterisation -/
theorem space_not_digit (c : Char) (hs : isSpaceChar c = true) :
    isDigitChar c = false := by
  have hfar : ∀ b ∈ digitBlocks, b + 9 < 0x2000 ∨ 0x200a < b := by decide
  simp only [isSpaceChar, Bool.or_eq_true, decide_eq_true_eq, Bool.and_eq_true] at hs
  rcases hs with (((((((((((((((((hc | hc) | hc) | hc) | hc) | hc) | hc) | hc) | hc) |
      hc) | hc) | hc) | hc) | ⟨h1, h2⟩) | hc) | hc) | hc) | hc) | hc
  all_goals first
    | (subst hc; decide)
    | (have hv1 : 0x2000 ≤ c.toNat := h1
       have hv2 : c.toNat ≤ 0x200a := h2
       rw [Bool.eq_false_iff]
       intro hd
       simp only [isDigitChar, List.any_eq_true, Bool.and_eq_true,
         decide_eq_true_eq] at hd
       obtain ⟨b, hb, hble, hbge⟩ := hd
       rcases hfar b hb with hlt | hgt <;> omega)

theorem takeWhile_append_all {p : Char → Bool} (xs ys : List Char)
    (hall : ∀ c ∈ xs, p c = true) :
    (xs ++ ys).takeWhile p = xs ++ ys.takeWhile p := by
  induction xs with
  | nil => simp
  | cons c xs ih =>
    have hc : p c = true := hall c (List.mem_cons_self _ _)
    simp only [List.cons_append, List.takeWhile_cons, hc, if_pos]
    rw [ih (fun d hd => hall d (List.mem_cons_of_mem _ hd))]

theorem dropWhile_append_all {p : Char → Bool} (xs ys : List Char)
    (hall : ∀ c ∈ xs, p c = true) :
    (xs ++ ys).dropWhile p = ys.dropWhile p := by
  induction xs with
  | nil => simp
  | cons c xs ih =>
    have hc : p c = true := hall c (List.mem_cons_self _ _)
    simp only [List.cons_append, List.dropWhile_cons, hc, if_pos, if_true, ite_true]
    exact ih (fun d hd => hall d (List.mem_cons_of_mem _ hd))

theorem dropWhile_cons_of_neg {p : Char → Bool} (c : Char) (cs : List Char)
    (hc : p c = false) : (c :: cs).dropWhile p = c :: cs := by
  simp [List.dropWhile_cons, hc]

/-- Evaluation of `matchAt` on a decomposed matching line. -/
theorem matchAt_eval (ds mid rest : List Char) (hds : ds ≠ [])
    (hdig : ∀ c ∈ ds, isDigitChar c = true)
    (hmid : ∀ c ∈ mid, isSpaceChar c = true)
    (hr : ∃ c ∈ rest, isSpaceChar c = false) :
    matchAt (ds ++ mid ++ ';' :: rest)
      = some (digitsVal ds,
          ⟨((rest.dropWhile isSpaceChar).reverse.dropWhile isSpaceChar).reverse⟩) := by
  have hsemi : isDigitChar ';' = false := by decide
  have htail : (mid ++ ';' :: rest).takeWhile isDigitChar = [] := by
    cases mid with
    | nil => simp [List.takeWhile_cons, hsemi]
    | cons m mid2 =>
      have : isDigitChar m = false :=
        space_not_digit m (hmid m (List.mem_cons_self _ _))
      simp [List.takeWhile_cons, this]
  have htake : (ds ++ mid ++ ';' :: rest).takeWhile isDigitChar = ds := by
    rw [List.append_assoc, takeWhile_append_all _ _ hdig, htail, List.append_nil]
  have hdrop : (ds ++ mid ++ ';' :: rest).dropWhile isDigitChar = mid ++ ';' :: rest := by
    rw [List.append_assoc, dropWhile_append_all _ _ hdig]
    cases mid with
    | nil => simp [List.dropWhile_cons, hsemi]
    | cons m mid2 =>
      have : isDigitChar m = false :=
        space_not_digit m (hmid m (List.mem_cons_self _ _))
      simp [List.dropWhile_cons, this]
  have hdropSpace : (mid ++ ';' :: rest).dropWhile isSpaceChar = ';' :: rest := by
    rw [dropWhile_append_all _ _ hmid]
    exact dropWhile_cons_of_neg _ _ (by decide)
  have hr2 : rest.dropWhile isSpaceChar ≠ [] := by
    intro hnil
    obtain ⟨c, hc, hcf⟩ := hr
    rw [List.dropWhile_eq_nil_iff] at hnil
    rw [hnil c hc] at hcf
    cases hcf
  simp only [matchAt, htake, hdrop, hdropSpace]
  simp only [List.isEmpty_eq_true, hds, hr2, if_neg, ite_false]

theorem matchAt_cons_of_nonDigit (c : Char) (cs : List Char)
    (hc : isDigitChar c = false) : matchAt (c :: cs) = none := by
  simp [matchAt, List.takeWhile_cons, hc]

/-- Inversion of a successful `matchAt`. -/
theorem matchAt_some_inv (cs : List Char) (i : Nat) (s : String)
    (hm : matchAt cs = some (i, s)) :
    ∃ ds mid rest, cs = ds ++ mid ++ ';' :: rest ∧ ds ≠ [] ∧
      (∀ c ∈ ds, isDigitChar c = true) ∧ (∀ c ∈ mid, isSpaceChar c = true) ∧
      (∃ c ∈ rest, isSpaceChar c = false) ∧ i = digitsVal ds ∧
      s = ⟨((rest.dropWhile isSpaceChar).reverse.dropWhile isSpaceChar).reverse⟩ := by
  simp only [matchAt] at hm
  split at hm
  · cases hm
  · rename_i hdsne
    split at hm
    · rename_i r hsc
      split at hm
      · cases hm
      · rename_i hr2ne
        injection hm with hm2
        injection hm2 with hmi hms
        refine ⟨cs.takeWhile isDigitChar,
          (cs.dropWhile isDigitChar).takeWhile isSpaceChar, r, ?_, ?_, ?_, ?_, ?_,
          hmi.symm, ?_⟩
        · conv_lhs => rw [← List.takeWhile_append_dropWhile isDigitChar cs]
          rw [List.append_assoc]
          congr 1
          conv_lhs =>
            rw [← List.takeWhile_append_dropWhile isSpaceChar (cs.dropWhile isDigitChar)]
          rw [hsc]
        · simpa [List.isEmpty_eq_true] using hdsne
        · exact fun c hc => List.mem_takeWhile_imp hc
        · exact fun c hc => List.mem_takeWhile_imp hc
        · by_contra hall
          push_neg at hall
          have : r.dropWhile isSpaceChar = [] :=
            List.dropWhile_eq_nil_iff.mpr (fun x hx => by
              have := hall x hx
              simpa using this)
          exact hr2ne (by simpa [List.isEmpty_eq_true] using this)
        · exact hms.symm
    · cases hm



theorem searchFrom_some_inv :
    ∀ (cs : List Char) (i : Nat) (s : String), searchFrom cs = some (i, s) →
      ∃ pre suf, cs = pre ++ suf ∧ matchAt suf = some (i, s) := by
  intro cs
  induction cs with
  | nil => intro i s hm; cases hm
  | cons c rest ih =>
    intro i s hm
    unfold searchFrom at hm
    cases hM : matchAt (c :: rest) with
    | some r =>
      rw [hM] at hm
      injection hm with hr
      subst hr
      exact ⟨[], c :: rest, rfl, hM⟩
    | none =>
      rw [hM] at hm
      obtain ⟨pre, suf, heq, hsuf⟩ := ih i s hm
      exact ⟨c :: pre, suf, by rw [heq, List.cons_append], hsuf⟩

theorem searchFrom_isSome_of (pre suf : List Char)
    (hsuf : (matchAt suf).isSome = true) :
    (searchFrom (pre ++ suf)).isSome = true := by
  induction pre with
  | nil =>
    cases suf with
    | nil => cases hsuf
    | cons c r =>
      rw [List.nil_append]
      unfold searchFrom
      cases hM : matchAt (c :: r) with
      | some v => rfl
      | none => rw [hM] at hsuf; cases hsuf
  | cons c pre ih =>
    rw [List.cons_append]
    unfold searchFrom
    cases hM : matchAt (c :: (pre ++ suf)) with
    | some v => rfl
    | none => exact ih

/-- A line of the documented well-formed shape — optional leading
whitespace, digits, optional whitespace, a semicolon, then a path with at
least one non-whitespace character — parses to the expected entry. -/
theorem parseLine_pos : ∀ ws0 ds mid rest : List Char,
    (∀ c ∈ ws0, isSpaceChar c = true) → ds ≠ [] →
    (∀ c ∈ ds, isDigitChar c = true) → (∀ c ∈ mid, isSpaceChar c = true) →
    (∃ c ∈ rest, isSpaceChar c = false) →
    parseLine (ws0 ++ ds ++ mid ++ ';' :: rest)
      = some (digitsVal ds,
          ⟨((rest.dropWhile isSpaceChar).reverse.dropWhile isSpaceChar).reverse⟩) := by
  intro ws0
  induction ws0 with
  | nil =>
    intro ds mid rest hws hds hdig hmid hr
    obtain ⟨d, ds2, rfl⟩ := List.exists_cons_of_ne_nil hds
    rw [List.nil_append]
    show searchFrom (d :: (ds2 ++ mid ++ ';' :: rest)) = _
    unfold searchFrom
    rw [show d :: (ds2 ++ mid ++ ';' :: rest) = (d :: ds2) ++ mid ++ ';' :: rest
        from rfl,
      matchAt_eval (d :: ds2) mid rest hds hdig hmid hr]
  | cons c ws0 ih =>
    intro ds mid rest hws hds hdig hmid hr
    have hc : isSpaceChar c = true := hws c (List.mem_cons_self _ _)
    rw [List.cons_append]
    show searchFrom (c :: (ws0 ++ ds ++ mid ++ ';' :: rest)) = _
    unfold searchFrom
    rw [matchAt_cons_of_nonDigit c _ (space_not_digit c hc)]
    exact ih ds mid rest (fun x hx => hws x (List.mem_cons_of_mem _ hx))
      hds hdig hmid hr

/-- C8 (amended): a line contributes an entry exactly when it contains — at
any position, not only after leading whitespace — a nonempty run of digits
followed by optional whitespace, a semicolon and at least one later
non-whitespace character; the leftmost such match provides the entry, whose
index is the digit run's value and whose path is the text after the
semicolon with surrounding whitespace trimmed.  In particular a line of the
documented form (optional leading whitespace, integer, optional whitespace,
semicolon, path) yields exactly the documented entry, but non-whitespace
text before the integer does not invalidate a line. -/
theorem claim_C8 :
    (∀ ws0 ds mid rest : List Char,
      (∀ c ∈ ws0, isSpaceChar c = true) → ds ≠ [] →
      (∀ c ∈ ds, isDigitChar c = true) → (∀ c ∈ mid, isSpaceChar c = true) →
      (∃ c ∈ rest, isSpaceChar c = false) →
      parseLine (ws0 ++ ds ++ mid ++ ';' :: rest)
        = some (digitsVal ds,
            ⟨((rest.dropWhile isSpaceChar).reverse.dropWhile isSpaceChar).reverse⟩))
    ∧ (∀ cs : List Char, (parseLine cs).isSome = true ↔
        ∃ pre ds mid rest, cs = pre ++ (ds ++ mid ++ ';' :: rest) ∧ ds ≠ [] ∧
          (∀ c ∈ ds, isDigitChar c = true) ∧ (∀ c ∈ mid, isSpaceChar c = true) ∧
          ∃ c ∈ rest, isSpaceChar c = false)
    ∧ (∀ (cs : List Char) (i : Nat) (s : String), parseLine cs = some (i, s) →
        ∃ pre ds mid rest, cs = pre ++ (ds ++ mid ++ ';' :: rest) ∧ ds ≠ [] ∧
          (∀ c ∈ ds, isDigitChar c = true) ∧ (∀ c ∈ mid, isSpaceChar c = true) ∧
          (∃ c ∈ rest, isSpaceChar c = false) ∧ i = digitsVal ds ∧
          s = ⟨((rest.dropWhile isSpaceChar).reverse.dropWhile isSpaceChar).reverse⟩) := by
  refine ⟨parseLine_pos, ?_, ?_⟩
  · intro cs
    constructor
    · intro hsome
      obtain ⟨⟨i, s⟩, hv⟩ := Option.isSome_iff_exists.mp hsome
      obtain ⟨pre, suf, rfl, hsuf⟩ := searchFrom_some_inv cs i s hv
      obtain ⟨ds, mid, rest, rfl, hds, hdig, hmid, hr, _, _⟩ :=
        matchAt_some_inv suf i s hsuf
      exact ⟨pre, ds, mid, rest, rfl, hds, hdig, hmid, hr⟩
    · rintro ⟨pre, ds, mid, rest, rfl, hds, hdig, hmid, hr⟩
      have hM : (matchAt (ds ++ mid ++ ';' :: rest)).isSome = true := by
        rw [matchAt_eval ds mid rest hds hdig hmid hr]; rfl
      exact searchFrom_isSome_of pre _ hM
  · intro cs i s hp
    obtain ⟨pre, suf, rfl, hsuf⟩ := searchFrom_some_inv cs i s hp
    obtain ⟨ds, mid, rest, rfl, hds, hdig, hmid, hr, hi, hs⟩ :=
      matchAt_some_inv suf i s hsuf
    exact ⟨pre, ds, mid, rest, rfl, hds, hdig, hmid, hr, hi, hs⟩

/-- Witness for C8 (amended): the documented well-formed line
`" 1; a "` decodes to the entry `(1, "a")`. -/
theorem claim_C8_witness :
    (parseLine ([' '] ++ ['1'] ++ [] ++ ';' :: [' ', 'a', ' '])
      = some (1, "a")) ∧
    (parseLine ([] ++ ['٣'] ++ [] ++ ';' :: [' ', 'a'])
      = some (3, "a")) := by
  have hA := claim_C8.1 [' '] ['1'] [] [' ', 'a', ' ']
    (by decide) (by decide) (by decide) (by decide) ⟨'a', by decide, by decide⟩
  have hB := claim_C8.1 [] ['٣'] [] [' ', 'a']
    (by decide) (by decide) (by decide) (by decide) ⟨'a', by decide, by decide⟩
  exact ⟨hA, hB⟩

/-! ### Encode-decode round trip -/
/-- The characters of one encoded manifest line, without the final newline. -/
def lineCore (e : Nat × String) : List Char :=
  (Nat.repr e.1).data ++ ';' :: ' ' :: e.2.data

/-- Paths whose encoded line decodes back to them exactly: canonical `Path`
strings that are nonempty, contain no newline, and neither start nor end
with regex whitespace. -/
def goodPath (p : String) : Bool :=
  (pathNorm p == p) && !(p.data.isEmpty) && !(isSpaceChar (p.data.headD ' ')) &&
  !(isSpaceChar (p.data.getLastD ' ')) && decide ('\n' ∉ p.data)

theorem trim_trailing_self (l : List Char) (hne : l ≠ [])
    (hlast : isSpaceChar (l.getLastD ' ') = false) :
    (l.reverse.dropWhile isSpaceChar).reverse = l := by
  rcases List.eq_nil_or_concat l with hnil | ⟨ys, b, hconc⟩
  · cases hne hnil
  · rw [hconc]
    have hb : isSpaceChar b = false := by
      have h2 := hlast
      rw [hconc] at h2
      simpa [List.concat_eq_append, List.getLastD_concat] using h2
    rw [List.concat_eq_append, List.reverse_append]
    simp only [List.reverse_cons, List.reverse_nil, List.nil_append,
      List.cons_append, List.singleton_append]
    rw [dropWhile_cons_of_neg _ _ hb]
    simp

theorem parseLine_lineCore (i : Nat) (p : String) (hne : p.data ≠ [])
    (hhead : isSpaceChar (p.data.headD ' ') = false)
    (hlast : isSpaceChar (p.data.getLastD ' ') = false) :
    parseLine (lineCore (i, p)) = some (i, p) := by
  obtain ⟨c, l2, hpd⟩ := List.exists_cons_of_ne_nil hne
  have hc : isSpaceChar c = false := by
    rw [hpd] at hhead; simpa using hhead
  have hrest : ∃ d ∈ ' ' :: p.data, isSpaceChar d = false := by
    refine ⟨c, ?_, hc⟩
    rw [hpd]
    exact List.mem_cons_of_mem _ (List.mem_cons_self _ _)
  have h := parseLine_pos [] (Nat.repr i).data [] (' ' :: p.data)
    (by intro x hx; cases hx) (repr_data_ne_nil i) (repr_data_digits i)
    (by intro x hx; cases hx) hrest
  simp only [List.nil_append, List.append_nil] at h
  have hdrop : (' ' :: p.data).dropWhile isSpaceChar = p.data := by
    rw [List.dropWhile_cons]
    simp only [show isSpaceChar ' ' = true from rfl, if_true, ite_true]
    rw [hpd]
    exact dropWhile_cons_of_neg _ _ (by simpa [hpd] using hhead)
  rw [hdrop] at h
  rw [trim_trailing_self p.data hne hlast] at h
  rw [repr_data_val i] at h
  show parseLine ((Nat.repr i).data ++ ';' :: ' ' :: p.data) = some (i, p)
  exact h

theorem toText_data (m : EnumeratedFiles) :
    m.toText.data = ((m.entries.map (fun e => lineCore e ++ ['\n'])).flatten) := by
  suffices h : ∀ (es : List (Nat × String)) (acc : String),
      (es.foldl (fun out e => out ++ Nat.repr e.1 ++ "; " ++ e.2 ++ "\n") acc).data
        = acc.data ++ (es.map (fun e => lineCore e ++ ['\n'])).flatten by
    simpa using h m.entries ""
  intro es
  induction es with
  | nil => intro acc; simp
  | cons e es ih =>
    intro acc
    rw [List.foldl_cons, ih]
    simp [string_data_append, lineCore, List.append_assoc]

theorem splitOnChar_append (sep : Char) (xs ys : List Char) (hx : sep ∉ xs) :
    splitOnChar sep (xs ++ sep :: ys) = xs :: splitOnChar sep ys := by
  induction xs with
  | nil => simp [splitOnChar]
  | cons c xs ih =>
    have hc : ¬ (c = sep) := fun he => hx (he ▸ List.mem_cons_self _ _)
    rw [List.cons_append]
    show splitOnChar sep (c :: (xs ++ sep :: ys)) = _
    rw [show splitOnChar sep (c :: (xs ++ sep :: ys))
        = if c = sep then [] :: splitOnChar sep (xs ++ sep :: ys)
          else match splitOnChar sep (xs ++ sep :: ys) with
            | [] => [[c]]
            | l :: ls => (c :: l) :: ls from rfl]
    rw [if_neg hc, ih (fun hm => hx (List.mem_cons_of_mem _ hm))]

theorem splitOnNl_join (cores : List (List Char))
    (hnn : ∀ l ∈ cores, '\n' ∉ l) :
    splitOnNl ((cores.map (fun l => l ++ ['\n'])).flatten) = cores ++ [[]] := by
  induction cores with
  | nil => rfl
  | cons l ls ih =>
    rw [List.map_cons, List.flatten_cons]
    rw [show (l ++ ['\n']) ++ (ls.map (fun l => l ++ ['\n'])).flatten
        = l ++ '\n' :: (ls.map (fun l => l ++ ['\n'])).flatten by
      simp [List.append_assoc]]
    show splitOnChar '\n' _ = _
    rw [splitOnChar_append _ _ _ (hnn l (List.mem_cons_self _ _))]
    rw [show splitOnChar '\n' ((ls.map (fun l => l ++ ['\n'])).flatten)
        = splitOnNl ((ls.map (fun l => l ++ ['\n'])).flatten) from rfl]
    rw [ih (fun x hx => hnn x (List.mem_cons_of_mem _ hx))]
    rfl

theorem fold_decode (es : List (Nat × String)) :
    ∀ d0 : List (Nat × String),
      (∀ e ∈ es, parseLine (lineCore e) = some (e.1, e.2) ∧ pathNorm e.2 = e.2) →
      (∀ e ∈ es, ∀ q ∈ d0, q.1 ≠ e.1) →
      (es.map Prod.fst).Nodup →
      (es.map lineCore).foldl decodeStep d0 = d0 ++ es := by
  induction es with
  | nil => intro d0 _ _ _; simp
  | cons e es ih =>
    intro d0 hlines hdisj hnd
    obtain ⟨k, p⟩ := e
    rw [List.map_cons, List.foldl_cons]
    have hline := hlines (k, p) (List.mem_cons_self _ _)
    have hany : d0.any (fun q => q.1 == k) = false := by
      rw [List.any_eq_false]
      intro q hq
      simpa using hdisj (k, p) (List.mem_cons_self _ _) q hq
    have hstep : decodeStep d0 (lineCore (k, p)) = d0 ++ [(k, p)] := by
      unfold decodeStep
      rw [hline.1]
      show dictInsert d0 k (pathNorm p) = d0 ++ [(k, p)]
      rw [hline.2]
      unfold dictInsert
      simp [hany]
    rw [hstep]
    simp only [List.map_cons, List.nodup_cons] at hnd
    rw [ih (d0 ++ [(k, p)])
      (fun e he => hlines e (List.mem_cons_of_mem _ he))
      (by
        intro e he q hq
        rcases List.mem_append.mp hq with hq1 | hq2
        · exact hdisj e (List.mem_cons_of_mem _ he) q hq1
        · rcases List.mem_singleton.mp hq2 with rfl
          intro hcontra
          apply hnd.1
          rw [show k = e.1 from hcontra]
          exact List.mem_map_of_mem Prod.fst he)
      hnd.2]
    simp

/-- C2 (amended): for a manifest with pairwise-distinct keys and paths, all
of whose paths are canonical `Path` strings that are nonempty, contain no
newline, and neither start nor end with whitespace, decoding the encoded
text returns exactly the manifest. -/
theorem claim_C2 (m : EnumeratedFiles) (hkeys : m.keys.Nodup)
    (hvals : (m.entries.map Prod.snd).Nodup)
    (hgood : ∀ e ∈ m.entries, goodPath e.2 = true) :
    EnumeratedFiles.from_str m.toText = .ok m := by
  have hg : ∀ e ∈ m.entries, pathNorm e.2 = e.2 ∧ e.2.data ≠ [] ∧
      isSpaceChar (e.2.data.headD ' ') = false ∧
      isSpaceChar (e.2.data.getLastD ' ') = false ∧ '\n' ∉ e.2.data := by
    intro e he
    have hgb := hgood e he
    simp only [goodPath, Bool.and_eq_true, beq_iff_eq, Bool.not_eq_true',
      decide_eq_true_eq] at hgb
    obtain ⟨⟨⟨⟨h1, h2⟩, h3⟩, h4⟩, h5⟩ := hgb
    refine ⟨h1, ?_, h3, h4, h5⟩
    intro hnil
    rw [hnil] at h2
    cases h2
  have hnn : ∀ l ∈ m.entries.map lineCore, '\n' ∉ l := by
    intro l hl
    obtain ⟨e, he, rfl⟩ := List.mem_map.mp hl
    intro hmem
    unfold lineCore at hmem
    rcases List.mem_append.mp hmem with hrep | hrest
    · exact absurd (repr_data_digits e.1 '\n' hrep) (by decide)
    · rcases List.mem_cons.mp hrest with h1 | h2
      · exact absurd h1 (by decide)
      · rcases List.mem_cons.mp h2 with h3 | h4
        · exact absurd h3 (by decide)
        · exact (hg e he).2.2.2.2 h4
  unfold EnumeratedFiles.from_str
  rw [toText_data]
  rw [show m.entries.map (fun e => lineCore e ++ ['\n'])
      = (m.entries.map lineCore).map (fun l => l ++ ['\n']) from by
    rw [List.map_map]; rfl]
  rw [splitOnNl_join _ hnn]
  rw [List.foldl_append]
  rw [fold_decode m.entries []
    (by
      intro e he
      obtain ⟨k, p⟩ := e
      have hge := hg (k, p) he
      exact ⟨parseLine_lineCore k p hge.2.1 hge.2.2.1 hge.2.2.2.1, hge.1⟩)
    (by intro e _ q hq; cases hq)
    hkeys]
  rw [List.nil_append]
  rw [show List.foldl decodeStep m.entries [[]] = decodeStep m.entries [] from rfl]
  rw [show decodeStep m.entries [] = m.entries from rfl]
  unfold mkEnumeratedFiles
  rw [if_pos hvals]

/-- Witness for C2 (amended) on a concrete two-entry manifest. -/
theorem claim_C2_witness :
    EnumeratedFiles.from_str
        (EnumeratedFiles.toText ⟨[(0, "a"), (2, "b/c")]⟩)
      = .ok ⟨[(0, "a"), (2, "b/c")]⟩ :=
  claim_C2 ⟨[(0, "a"), (2, "b/c")]⟩ (by decide) (by decide) (by decide)

end RenameInEditor
